import Mathlib

/-!
Verification development for the link-checker script `link_checker.py`.

The script extracts the JavaScript arrays `institutes` and `jobBoards` from an
HTML document via the regex `const\s+(institutes|jobBoards)\s*=\s*(\[.*?\]);`
(DOTALL), leniently normalizes each matched array toward JSON (single quotes
and backticks replaced by double quotes, then the substitutions `,\s*\x7d -> \x7d`
and `,\s*] -> ]`), parses it with `json.loads`, collects the truthy `url` and
`homepageUrl` fields of the records into a set, then probes every collected URL
over the network and classifies the outcome.

The embedding below models documents as `List Char`, JSON values as a mutual
inductive family (`JValue`, `JArr`, `JObj`), the network as a function
assigning an abstract probe outcome to every URL, and the process as small-step
functions mirroring `extract_urls_from_js`, `check_link` and `main`.
Python's arbitrary set-iteration order is modeled as insertion order; no claim
below depends on the order, only on membership and multiplicity.
-/

namespace LinkChecker

/-- The single-quote character, kept out of literals for hygiene. -/
def squote : Char := Char.ofNat 39

/-- The backtick character. -/
def btick : Char := Char.ofNat 96

/-- Python's regex class `\s` for text patterns: ASCII whitespace plus the
Unicode whitespace characters recognized by `re` in str mode. -/
def isPyWs (c : Char) : Bool :=
  c = ' ' || c = '\t' || c = '\n' || c = '\r' || c = '\x0b' || c = '\x0c' ||
  c = '\x1c' || c = '\x1d' || c = '\x1e' || c = '\x1f' || c = '\x85' || c = '\xa0' ||
  c = ' ' || (' ' ≤ c && c ≤ ' ') || c = ' ' || c = ' ' ||
  c = ' ' || c = ' ' || c = '　'

/-- JSON whitespace as used by `json.loads` (strictly smaller than `\s`). -/
def isJsonWs (c : Char) : Bool :=
  c = ' ' || c = '\t' || c = '\n' || c = '\r'

/-- Skip JSON whitespace. -/
def dropJWs (s : List Char) : List Char := s.dropWhile isJsonWs

mutual

/-- A decoded JSON value, as produced by `json.loads`. Numbers keep the raw
matched token together with a zero-test (which is all Python truthiness needs);
objects keep their key/value pairs in textual order, a later duplicate key
shadowing an earlier one just as in a Python dict. -/
inductive JValue where
  | null : JValue
  | bool (b : Bool) : JValue
  | num (isZero : Bool) (raw : List Char) : JValue
  | str (s : List Char) : JValue
  | arr (elems : JArr) : JValue
  | obj (fields : JObj) : JValue

/-- The elements of a JSON array. -/
inductive JArr where
  | nil : JArr
  | cons (hd : JValue) (tl : JArr) : JArr

/-- The key/value pairs of a JSON object. -/
inductive JObj where
  | nil : JObj
  | cons (key : List Char) (val : JValue) (tl : JObj) : JObj

end

mutual

/-- Structural boolean equality of JSON values. -/
def jeq : JValue → JValue → Bool
  | .null, .null => true
  | .bool a, .bool b => a == b
  | .num a r, .num b t => a == b && r == t
  | .str a, .str b => a == b
  | .arr a, .arr b => jaeq a b
  | .obj a, .obj b => joeq a b
  | _, _ => false

/-- Structural boolean equality of JSON array contents. -/
def jaeq : JArr → JArr → Bool
  | .nil, .nil => true
  | .cons x xs, .cons y ys => jeq x y && jaeq xs ys
  | _, _ => false

/-- Structural boolean equality of JSON object contents. -/
def joeq : JObj → JObj → Bool
  | .nil, .nil => true
  | .cons k v t, .cons l w u => k == l && jeq v w && joeq t u
  | _, _ => false

end

mutual

/-- `jeq` decides equality of JSON values. -/
def jeq_iff : ∀ a b : JValue, jeq a b = true ↔ a = b
  | .null, .null => by simp [jeq]
  | .bool _, .bool _ => by simp [jeq]
  | .num _ _, .num _ _ => by simp [jeq]
  | .str _, .str _ => by simp [jeq]
  | .arr a, .arr b => by simp [jeq, jaeq_iff a b]
  | .obj a, .obj b => by simp [jeq, joeq_iff a b]
  | .null, .bool _ => by simp [jeq]
  | .null, .num _ _ => by simp [jeq]
  | .null, .str _ => by simp [jeq]
  | .null, .arr _ => by simp [jeq]
  | .null, .obj _ => by simp [jeq]
  | .bool _, .null => by simp [jeq]
  | .bool _, .num _ _ => by simp [jeq]
  | .bool _, .str _ => by simp [jeq]
  | .bool _, .arr _ => by simp [jeq]
  | .bool _, .obj _ => by simp [jeq]
  | .num _ _, .null => by simp [jeq]
  | .num _ _, .bool _ => by simp [jeq]
  | .num _ _, .str _ => by simp [jeq]
  | .num _ _, .arr _ => by simp [jeq]
  | .num _ _, .obj _ => by simp [jeq]
  | .str _, .null => by simp [jeq]
  | .str _, .bool _ => by simp [jeq]
  | .str _, .num _ _ => by simp [jeq]
  | .str _, .arr _ => by simp [jeq]
  | .str _, .obj _ => by simp [jeq]
  | .arr _, .null => by simp [jeq]
  | .arr _, .bool _ => by simp [jeq]
  | .arr _, .num _ _ => by simp [jeq]
  | .arr _, .str _ => by simp [jeq]
  | .arr _, .obj _ => by simp [jeq]
  | .obj _, .null => by simp [jeq]
  | .obj _, .bool _ => by simp [jeq]
  | .obj _, .num _ _ => by simp [jeq]
  | .obj _, .str _ => by simp [jeq]
  | .obj _, .arr _ => by simp [jeq]

/-- `jaeq` decides equality of array contents. -/
def jaeq_iff : ∀ a b : JArr, jaeq a b = true ↔ a = b
  | .nil, .nil => by simp [jaeq]
  | .cons x xs, .cons y ys => by simp [jaeq, jeq_iff x y, jaeq_iff xs ys]
  | .nil, .cons _ _ => by simp [jaeq]
  | .cons _ _, .nil => by simp [jaeq]

/-- `joeq` decides equality of object contents. -/
def joeq_iff : ∀ a b : JObj, joeq a b = true ↔ a = b
  | .nil, .nil => by simp [joeq]
  | .cons k v t, .cons l w u => by simp [joeq, jeq_iff v w, joeq_iff t u, and_assoc]
  | .nil, .cons _ _ _ => by simp [joeq]
  | .cons _ _ _, .nil => by simp [joeq]

end

instance : DecidableEq JValue := fun a b => decidable_of_iff _ (jeq_iff a b)

/-- Convert a parsed element list into the array representation. -/
def JArr.ofList : List JValue → JArr
  | [] => .nil
  | v :: r => .cons v (JArr.ofList r)

/-- The elements of an array, as a list. -/
def JArr.toList : JArr → List JValue
  | .nil => []
  | .cons v r => v :: JArr.toList r

/-- Convert parsed key/value pairs into the object representation. -/
def JObj.ofList : List (List Char × JValue) → JObj
  | [] => .nil
  | (k, v) :: r => .cons k v (JObj.ofList r)

/-- The key/value pairs of an object, as a list. -/
def JObj.toList : JObj → List (List Char × JValue)
  | .nil => []
  | .cons k v r => (k, v) :: JObj.toList r

/-- Python dict lookup after building the dict from the pair list in order:
the last pair with the wanted key wins. -/
def objGet : JObj → List Char → Option JValue
  | .nil, _ => none
  | .cons k v t, key =>
    match objGet t key with
    | some r => some r
    | none => if k = key then some v else none

/-- The value of one hexadecimal digit. -/
def hexVal (c : Char) : Option Nat :=
  if '0' ≤ c && c ≤ '9' then some (c.toNat - 48)
  else if 'a' ≤ c && c ≤ 'f' then some (c.toNat - 87)
  else if 'A' ≤ c && c ≤ 'F' then some (c.toNat - 70)
  else none

/-- The value of a 4-digit hexadecimal escape. -/
def hex4 (a b c d : Char) : Option Nat :=
  match hexVal a, hexVal b, hexVal c, hexVal d with
  | some x, some y, some z, some w => some (((x * 16 + y) * 16 + z) * 16 + w)
  | _, _, _, _ => none

/-- The character denoted by a shorthand backslash escape in a JSON string. -/
def escFor (c : Char) : Option Char :=
  if c = '"' then some '"'
  else if c = '\\' then some '\\'
  else if c = '/' then some '/'
  else if c = 'b' then some '\x08'
  else if c = 'f' then some '\x0c'
  else if c = 'n' then some '\n'
  else if c = 'r' then some '\r'
  else if c = 't' then some '\t'
  else none

/-- JSON string scanning, after the opening quote: literal characters up to the
closing quote, backslash escapes, `\uXXXX` escapes with surrogate pairs
combined, and a strict error on raw control characters. A lone surrogate (kept
verbatim by Python) falls outside Lean scalar values and is modeled as the
`Char.ofNat` default. Returns the decoded content and the rest of the input.
Every step consumes at least one character, so the fuel argument never runs
out when it starts at the input length plus one. -/
def parseStringF : Nat → List Char → Option (List Char × List Char)
  | 0, _ => none
  | _, [] => none
  | _ + 1, '"' :: rest => some ([], rest)
  | fuel + 1, '\\' :: 'u' :: a :: b :: c :: d :: rest =>
    (match hex4 a b c d with
     | none => none
     | some n =>
       if 0xd800 ≤ n && n ≤ 0xdbff then
         match rest with
         | '\\' :: 'u' :: e :: f :: g :: h :: rest2 =>
           (match hex4 e f g h with
            | some m =>
              if 0xdc00 ≤ m && m ≤ 0xdfff then
                (parseStringF fuel rest2).map
                  (fun p => (Char.ofNat (0x10000 + (n - 0xd800) * 1024 + (m - 0xdc00)) :: p.1, p.2))
              else (parseStringF fuel rest).map (fun p => (Char.ofNat n :: p.1, p.2))
            | none => (parseStringF fuel rest).map (fun p => (Char.ofNat n :: p.1, p.2)))
         | _ => (parseStringF fuel rest).map (fun p => (Char.ofNat n :: p.1, p.2))
       else (parseStringF fuel rest).map (fun p => (Char.ofNat n :: p.1, p.2)))
  | fuel + 1, '\\' :: e :: rest =>
    (match escFor e with
     | some c => (parseStringF fuel rest).map (fun p => (c :: p.1, p.2))
     | none => none)
  | fuel + 1, c :: rest =>
    if c.toNat < 0x20 then none
    else (parseStringF fuel rest).map (fun p => (c :: p.1, p.2))

/-- JSON string scanning with enough fuel for its input. -/
def parseStringAux (s : List Char) : Option (List Char × List Char) :=
  parseStringF (s.length + 1) s

/-- Scan a JSON number token (the regex `(-?(?:0|[1-9]\d*))(\.\d+)?([eE][-+]?\d+)?`),
returning whether its mantissa is zero and the rest of the input. -/
def numEnd (s : List Char) : Option (Bool × List Char) :=
  let s1 := match s with
    | '-' :: r => r
    | _ => s
  match s1 with
  | [] => none
  | c :: r1 =>
    let intFrac : Option (Bool × List Char) :=
      if c = '0' then some (true, r1)
      else if '1' ≤ c && c ≤ '9' then some (false, r1.dropWhile Char.isDigit)
      else none
    match intFrac with
    | none => none
    | some (intZero, s2) =>
      let fracRes : Bool × List Char := match s2 with
        | '.' :: r2 =>
          if (r2.takeWhile Char.isDigit).isEmpty then (true, s2)
          else ((r2.takeWhile Char.isDigit).all (fun d => d = '0'), r2.dropWhile Char.isDigit)
        | _ => (true, s2)
      let s3 := fracRes.2
      let s4 := match s3 with
        | e :: r3 =>
          if e = 'e' || e = 'E' then
            match r3 with
            | sg :: r4 =>
              if sg = '+' || sg = '-' then
                if (r4.takeWhile Char.isDigit).isEmpty then s3 else r4.dropWhile Char.isDigit
              else if (r3.takeWhile Char.isDigit).isEmpty then s3 else r3.dropWhile Char.isDigit
            | [] => s3
          else s3
        | [] => s3
      some (intZero && fracRes.1, s4)

/-- Scan a number where `json.loads` would attempt its number regex, keeping
the raw matched token. -/
def parseNumber (s : List Char) : Option (JValue × List Char) :=
  match numEnd s with
  | some (z, rest) => some (.num z (s.take (s.length - rest.length)), rest)
  | none => none

/-- The non-standard constants accepted by `json.loads` after the number regex
fails: `NaN`, `Infinity`, `-Infinity` (all truthy). -/
def parseConst (s : List Char) : Option (JValue × List Char) :=
  match s with
  | 'N' :: 'a' :: 'N' :: rest => some (.num false ('N' :: 'a' :: 'N' :: []), rest)
  | 'I' :: 'n' :: 'f' :: 'i' :: 'n' :: 'i' :: 't' :: 'y' :: rest =>
    some (.num false ('I' :: 'n' :: 'f' :: []), rest)
  | '-' :: 'I' :: 'n' :: 'f' :: 'i' :: 'n' :: 'i' :: 't' :: 'y' :: rest =>
    some (.num false ('-' :: 'I' :: 'n' :: 'f' :: []), rest)
  | _ => none

mutual

/-- `json.loads`' value scanner at an exact position: strings, objects, arrays,
the three keyword literals, then the number regex, then the non-standard
constants. Fuel only bounds recursion depth; it is chosen large enough at the
top entry that it never runs out. -/
def parseValue : Nat → List Char → Option (JValue × List Char)
  | 0, _ => none
  | fuel + 1, s =>
    match s with
    | '"' :: rest => (parseStringAux rest).map (fun p => (JValue.str p.1, p.2))
    | '\x7b' :: rest => parseObjStart fuel rest
    | '[' :: rest => parseArrStart fuel rest
    | 'n' :: 'u' :: 'l' :: 'l' :: rest => some (.null, rest)
    | 't' :: 'r' :: 'u' :: 'e' :: rest => some (.bool true, rest)
    | 'f' :: 'a' :: 'l' :: 's' :: 'e' :: rest => some (.bool false, rest)
    | _ =>
      match parseNumber s with
      | some r => some r
      | none => parseConst s

/-- Array scanning after the opening bracket. -/
def parseArrStart : Nat → List Char → Option (JValue × List Char)
  | 0, _ => none
  | fuel + 1, s =>
    match dropJWs s with
    | ']' :: rest => some (.arr .nil, rest)
    | s1 => parseArrElems fuel s1 []

/-- Array element loop: value, then `]` to finish or `,` to continue; a
trailing comma fails because the next value scan hits `]`. -/
def parseArrElems : Nat → List Char → List JValue → Option (JValue × List Char)
  | 0, _, _ => none
  | fuel + 1, s, acc =>
    match parseValue fuel s with
    | none => none
    | some (v, rest) =>
      match dropJWs rest with
      | ']' :: rest2 => some (.arr (JArr.ofList (acc ++ [v])), rest2)
      | ',' :: rest2 => parseArrElems fuel (dropJWs rest2) (acc ++ [v])
      | _ => none

/-- Object scanning after the opening brace: empty object, or a double-quoted
first key. -/
def parseObjStart : Nat → List Char → Option (JValue × List Char)
  | 0, _ => none
  | fuel + 1, s =>
    match dropJWs s with
    | '\x7d' :: rest => some (.obj .nil, rest)
    | '"' :: rest => parseObjMembers fuel rest []
    | _ => none

/-- Object member loop, entered after the opening quote of a key: key string,
colon, value, then `\x7d` to finish or a comma followed by the next quoted key. -/
def parseObjMembers : Nat → List Char → List (List Char × JValue) → Option (JValue × List Char)
  | 0, _, _ => none
  | fuel + 1, s, acc =>
    match parseStringAux s with
    | none => none
    | some (key, r1) =>
      match dropJWs r1 with
      | ':' :: r2 =>
        (match parseValue fuel (dropJWs r2) with
         | none => none
         | some (v, r3) =>
           match dropJWs r3 with
           | '\x7d' :: r4 => some (.obj (JObj.ofList (acc ++ [(key, v)])), r4)
           | ',' :: r4 =>
             (match dropJWs r4 with
              | '"' :: r5 => parseObjMembers fuel r5 (acc ++ [(key, v)])
              | _ => none)
           | _ => none)
      | _ => none

end

/-- `json.loads`: skip whitespace, scan one value, require only whitespace
after it. `none` models `json.JSONDecodeError`. -/
def jsonParse (s : List Char) : Option JValue :=
  let t := dropJWs s
  match parseValue (4 * t.length + 8) t with
  | some (v, rest) => if (dropJWs rest).isEmpty then some v else none
  | none => none

/-- The quote normalization applied to a matched block:
`.replace("'", DQ).replace(BT, DQ)` maps every single quote and backtick,
wherever it occurs, to a double quote. -/
def quoteNorm (c : Char) : Char :=
  if c = squote || c = btick then '"' else c

/-- Apply `quoteNorm` to a whole block. -/
def normQuotes (s : List Char) : List Char := s.map quoteNorm

/-- Does the input start with python-`\s*` followed by `close`?  This is the
lookahead of the substitution `re.sub(",\s*close", close, s)` at a comma. -/
def wsThenClose (close : Char) : List Char → Bool
  | [] => false
  | c :: rest =>
    if c = close then true
    else if isPyWs c then wsThenClose close rest
    else false

/-- One left-to-right pass of `re.sub(",\s*close", close, s)`.  In state
`false` the scanner looks for a comma whose lookahead matches; the comma is
dropped and state `true` then drops the whitespace run and re-emits `close`,
after which scanning resumes fresh.  Because a match ends in `close` and no
match starts with `close`, resuming at the close character is equivalent to
resuming after the match, so this reproduces the non-overlapping semantics of
`re.sub`. -/
def stripAux (close : Char) : Bool → List Char → List Char
  | _, [] => []
  | true, c :: rest =>
    if c = close then close :: stripAux close false rest
    else stripAux close true rest
  | false, c :: rest =>
    if c = ',' then
      (if wsThenClose close rest then stripAux close true rest
       else ',' :: stripAux close false rest)
    else c :: stripAux close false rest

/-- `re.sub(",\s*close", close, s)`. -/
def stripClose (close : Char) (s : List Char) : List Char := stripAux close false s

/-- The whole lenient cleanup of a matched block: quote normalization, then
the trailing-comma substitution before `\x7d`, then before `]`. -/
def normalizeBlock (b : List Char) : List Char :=
  stripClose ']' (stripClose '\x7d' (normQuotes b))

/-- `json.loads` applied to the cleaned-up block text. -/
def parseBlock (b : List Char) : Option JValue :=
  jsonParse (normalizeBlock b)

/-- Literal matching: if `lit` is a prefix of `s`, return the rest. -/
def matchLit (lit s : List Char) : Option (List Char) :=
  if lit.isPrefixOf s then some (s.drop lit.length) else none

/-- Length of the maximal `\s*` run. -/
def wsRun (s : List Char) : Nat := (s.takeWhile isPyWs).length

/-- The lazy tail of the pattern: scan for the first occurrence of the
two-character terminator `];`, returning the content before it and the input
after it (the lazy `.*?` of `(\[.*?\]);` stops at the first such occurrence). -/
def findCloseSemi : List Char → Option (List Char × List Char)
  | ']' :: ';' :: rest => some ([], rest)
  | c :: rest => (findCloseSemi rest).map (fun p => (c :: p.1, p.2))
  | [] => none

/-- The alternation `(institutes|jobBoards)`. -/
def matchIdent (s : List Char) : Option (List Char × List Char) :=
  match matchLit ("institutes".toList) s with
  | some r => some (("institutes".toList), r)
  | none =>
    match matchLit ("jobBoards".toList) s with
    | some r => some (("jobBoards".toList), r)
    | none => none

/-- Try the pattern `const\s+(institutes|jobBoards)\s*=\s*(\[.*?\]);` at the
start of `s`.  Greedy `\s+`/`\s*` runs are maximal runs (no backtracking can
shorten them, since the following literals never start with whitespace).
Returns the two captured groups and the input after the match. -/
def tryMatchAt (s : List Char) : Option ((List Char × List Char) × List Char) :=
  match matchLit ("const".toList) s with
  | none => none
  | some s1 =>
    if wsRun s1 = 0 then none
    else
      match matchIdent (s1.drop (wsRun s1)) with
      | none => none
      | some (nm, s3) =>
        match matchLit (['=']) (s3.drop (wsRun s3)) with
        | none => none
        | some s5 =>
          match matchLit (['[']) (s5.drop (wsRun s5)) with
          | none => none
          | some s7 =>
            match findCloseSemi s7 with
            | none => none
            | some (content, after) => some ((nm, '[' :: (content ++ [']'])), after)

/-- `re.findall` scanning: try the pattern at each position left to right and
continue after each match.  Each step consumes at least one character, so fuel
equal to the document length never runs out. -/
def findBlocksAux : Nat → List Char → List (List Char × List Char)
  | 0, _ => []
  | _, [] => []
  | fuel + 1, s =>
    match tryMatchAt s with
    | some (nb, after) => nb :: findBlocksAux fuel after
    | none => findBlocksAux fuel (s.drop 1)

/-- `js_array_pattern.findall(html_content)`: every `(name, arrayText)` match. -/
def findBlocks (doc : List Char) : List (List Char × List Char) :=
  findBlocksAux doc.length doc

/-- The `url` key. -/
def urlField : List Char := ("url".toList)

/-- The `homepageUrl` key. -/
def homepageField : List Char := ("homepageUrl".toList)

/-- Substring test, as Python's `needle in string`. -/
def isInfixB (p s : List Char) : Bool :=
  s.tails.any (fun t => p.isPrefixOf t)

/-- Python equality of a string against an arbitrary JSON value (used by
`needle in list`): only a string can compare equal. -/
def strEqVal (s : List Char) : JValue → Bool
  | .str t => s == t
  | _ => false

/-- Python's `needle in list` membership over a JSON array. -/
def pyInArr (needle : List Char) : JArr → Bool
  | .nil => false
  | .cons v r => strEqVal needle v || pyInArr needle r

/-- Python truthiness of a decoded JSON value. -/
def truthy : JValue → Bool
  | .null => false
  | .bool b => b
  | .num z _ => !z
  | .str s => !s.isEmpty
  | .arr .nil => false
  | .arr (.cons _ _) => true
  | .obj .nil => false
  | .obj (.cons _ _ _) => true

/-- `urls.add(v)` on the insertion-ordered model of the Python set. -/
def addUrl (acc : List JValue) (v : JValue) : List JValue :=
  if v ∈ acc then acc else acc ++ [v]

/-- One `if key in item and item[key]: urls.add(item[key])` step on a dict. -/
def fieldStep (acc : List JValue) (kvs : JObj) (key : List Char) : List JValue :=
  match objGet kvs key with
  | some v => if truthy v then addUrl acc v else acc
  | none => acc

/-- Both field steps on a dict record, `url` first. -/
def procObj (acc : List JValue) (kvs : JObj) : List JValue :=
  fieldStep (fieldStep acc kvs urlField) kvs homepageField

/-- One loop iteration `for item in data`. For a dict, the two field lookups;
for a string, `key in item` is a substring test and a hit crashes at
`item[key]` with a TypeError; for a list, `key in item` is membership and a
hit crashes at `item[key]`; for any other value, `key in item` itself raises
TypeError. `none` models an uncaught exception. -/
def procItem (acc : List JValue) : JValue → Option (List JValue)
  | .obj kvs => some (procObj acc kvs)
  | .str s =>
    if isInfixB urlField s then none
    else if isInfixB homepageField s then none
    else some acc
  | .arr a =>
    if pyInArr urlField a then none
    else if pyInArr homepageField a then none
    else some acc
  | _ => none

/-- The `for item in data` loop. -/
def procItems (acc : List JValue) : List JValue → Option (List JValue)
  | [] => some acc
  | it :: rest =>
    match procItem acc it with
    | some acc2 => procItems acc2 rest
    | none => none

/-- Python iteration over a decoded JSON value: arrays yield their elements,
strings their characters (one-character strings), dicts their keys; anything
else raises TypeError. -/
def elemsOf : JValue → Option (List JValue)
  | .arr a => some (JArr.toList a)
  | .str s => some (s.map (fun c => JValue.str (c :: [])))
  | .obj o => some ((JObj.toList o).map (fun p => JValue.str p.1))
  | _ => none

/-- Process one matched block: a `json.JSONDecodeError` is caught (warning
printed, block skipped), while an exception in the item loop propagates. -/
def procBlockText (acc : List JValue) (b : List Char) : Option (List JValue) :=
  match parseBlock b with
  | none => some acc
  | some v =>
    match elemsOf v with
    | none => none
    | some items => procItems acc items

/-- Fold the per-block processing over all matched blocks, threading the
shared URL set. -/
def collectUrlsAux (acc : List JValue) : List (List Char) → Option (List JValue)
  | [] => some acc
  | b :: rest =>
    match procBlockText acc b with
    | some acc2 => collectUrlsAux acc2 rest
    | none => none

/-- How a run of `extract_urls_from_js` can end: `fatal` is `sys.exit(1)`
(file missing, or no array found), `crash` an uncaught exception, `ok` the
returned URL list. -/
inductive ExtractOutcome where
  | fatal : ExtractOutcome
  | crash : ExtractOutcome
  | ok (urls : List JValue) : ExtractOutcome

/-- `extract_urls_from_js`: the input file (`none` when missing, which makes
the `FileNotFoundError` handler call `sys.exit(1)`) to the extraction outcome. -/
def extract_urls_from_js (file : Option (List Char)) : ExtractOutcome :=
  match file with
  | none => .fatal
  | some doc =>
    let found := findBlocks doc
    if found.isEmpty then .fatal
    else
      match collectUrlsAux [] (found.map (fun p => p.2)) with
      | none => .crash
      | some urls => .ok urls

/-- What the network does for one URL probe: a response with a status code, a
`requests.exceptions.RequestException` with its class name, or any other
exception with its message. -/
inductive ProbeOutcome where
  | response (statusCode : Nat) : ProbeOutcome
  | reqError (excName : List Char) : ProbeOutcome
  | unexpected (msg : List Char) : ProbeOutcome

/-- `check_link`: classify one probe outcome into the status string. -/
def check_link : ProbeOutcome → List Char
  | .response code =>
    if 400 ≤ code then ("FAILED: Status ".toList) ++ (toString code).toList
    else ("OK".toList)
  | .reqError nm => ("FAILED: Request Error (".toList) ++ nm ++ (')' :: [])
  | .unexpected msg => ("FAILED: An unexpected error occurred (".toList) ++ msg ++ (')' :: [])

/-- How a whole run ends: fatal exit from extraction, an uncaught exception,
or completion with the per-URL report. -/
inductive RunOutcome where
  | fatal : RunOutcome
  | crash : RunOutcome
  | done (report : List (JValue × List Char)) : RunOutcome

/-- The check loop of `main`: one `(url, status)` pair per extracted URL, in
order. -/
def runReport (probe : JValue → ProbeOutcome) (urls : List JValue) : List (JValue × List Char) :=
  urls.map (fun u => (u, check_link (probe u)))

/-- The accumulated `broken_links` list of `main`. -/
def broken_links (report : List (JValue × List Char)) : List (JValue × List Char) :=
  report.filter (fun p => p.2 != ("OK".toList))

/-- `main`, parameterized by the input file and the network behavior. -/
def main (file : Option (List Char)) (probe : JValue → ProbeOutcome) : RunOutcome :=
  match extract_urls_from_js file with
  | .fatal => .fatal
  | .crash => .crash
  | .ok urls => .done (runReport probe urls)

/-- The process exit code: `sys.exit(1)` on the fatal path, 1 for an uncaught
exception, and for a completed run 1 exactly when `broken_links` is nonempty. -/
def exitCode : RunOutcome → Nat
  | .fatal => 1
  | .crash => 1
  | .done report => if (broken_links report).isEmpty then 0 else 1

/-- A parsed record (dict) contributes the value `x` when one of its two URL
fields is present with value `x` and `x` is truthy (Python's
`if key in item and item[key]`). -/
def fieldContrib (kvs : JObj) (x : JValue) : Prop :=
  (objGet kvs urlField = some x ∧ truthy x = true)
  ∨ (objGet kvs homepageField = some x ∧ truthy x = true)

/-- An item of a decoded block contributes `x` when it is a record whose URL
fields contribute `x`; items of any other shape contribute nothing. -/
def itemContrib (it : JValue) (x : JValue) : Prop :=
  ∃ kvs : JObj, it = JValue.obj kvs ∧ fieldContrib kvs x

/-- A matched block text contributes `x` when its cleaned-up text decodes to
an array one of whose items contributes `x`. -/
def blockContrib (b : List Char) (x : JValue) : Prop :=
  ∃ arr : JArr, parseBlock b = some (JValue.arr arr)
    ∧ ∃ it ∈ JArr.toList arr, itemContrib it x

/-- No decomposition of `s` ends in a comma followed only by `\s` whitespace:
the scan of `,\s*close` at that comma can then never look past the end of
`s`. -/
def noDanglingComma (s : List Char) : Prop :=
  ∀ (a w : List Char), (∀ c ∈ w, isPyWs c = true) → s ≠ a ++ ',' :: w

/-- Executable check for the dangling-comma condition: after dropping
trailing whitespace, does the text end in a comma? -/
def hasDanglingComma (s : List Char) : Bool :=
  match s.reverse.dropWhile isPyWs with
  | c :: _ => c = ','
  | [] => false

/-- The document of the claim-C9 run: a block that is a valid JSON array of
numbers. -/
def doc9 : List Char := ("const institutes = [1,2,3];".toList)

/-- The document used to instantiate claim C8. -/
def doc8 : List Char := ("const jobBoards = [\x7b\"url\":\"u\"\x7d];".toList)

/-- The document used to instantiate claim C4: one record with both URL
fields. -/
def doc4 : List Char :=
  ("const institutes = [\x7b\"url\":\"a\",\"homepageUrl\":\"b\"\x7d];".toList)

/-- The document used to instantiate claim C6: the same URL in two records. -/
def doc6 : List Char :=
  ("const institutes = [\x7b\"url\":\"a\"\x7d,\x7b\"url\":\"a\"\x7d];".toList)

/-- The document of claim C10: its only URL value spells a single quote with
the escape sequence backslash-u-0027, so the raw document contains no
single-quote character. -/
def doc10 : List Char := ("const institutes = [\x7b\"url\":\"a\\u0027b\"\x7d];".toList)

end LinkChecker

namespace LinkChecker

/-- C2: for every probe outcome — response, transport error, or any other
exception — `check_link` returns a status string (either the success status
or a FAILED-prefixed one); no failure mode escapes classification. -/
theorem check_link_never_raises (o : ProbeOutcome) :
    check_link o = ("OK".toList) ∨ ("FAILED".toList) <+: check_link o := by
  have hstat : ("FAILED: Status ".toList) = ("FAILED".toList) ++ (": Status ".toList) := by decide
  have hreq : ("FAILED: Request Error (".toList) =
      ("FAILED".toList) ++ (": Request Error (".toList) := by decide
  have hune : ("FAILED: An unexpected error occurred (".toList) =
      ("FAILED".toList) ++ (": An unexpected error occurred (".toList) := by decide
  cases o with
  | response code =>
    by_cases h : 400 ≤ code
    · right
      simp only [check_link, if_pos h, hstat, List.append_assoc]
      exact List.prefix_append _ _
    · left
      simp [check_link, h]
  | reqError nm =>
    right
    simp only [check_link, hreq, List.append_assoc]
    exact List.prefix_append _ _
  | unexpected msg =>
    right
    simp only [check_link, hune, List.append_assoc]
    exact List.prefix_append _ _

/-- C3: probe classification. A response with status below 400 yields "OK";
a response with status at least 400 yields "FAILED: Status code"; in
particular 404 yields a status containing "404" and 200 yields "OK"; and a
transport failure yields "FAILED: Request Error (kind)", which begins with
"FAILED". -/
theorem check_link_classifies :
    (∀ code : Nat, code < 400 → check_link (.response code) = ("OK".toList))
  ∧ (∀ code : Nat, 400 ≤ code →
      check_link (.response code) = ("FAILED: Status ".toList) ++ (toString code).toList)
  ∧ (check_link (.response 404) = ("FAILED: Status 404".toList)
      ∧ ("404".toList) <:+: check_link (.response 404))
  ∧ check_link (.response 200) = ("OK".toList)
  ∧ (∀ kind : List Char,
      check_link (.reqError kind) = ("FAILED: Request Error (".toList) ++ kind ++ (')' :: [])
      ∧ ("FAILED".toList) <+: check_link (.reqError kind)) := by
  refine ⟨?_, ?_, ⟨by decide, ?_⟩, by decide, ?_⟩
  · intro code h
    simp [check_link, Nat.not_le.mpr h]
  · intro code h
    simp [check_link, h]
  · exact ⟨("FAILED: Status ".toList), [], by decide⟩
  · intro kind
    refine ⟨rfl, ?_⟩
    have hreq : ("FAILED: Request Error (".toList) =
        ("FAILED".toList) ++ (": Request Error (".toList) := by decide
    simp only [check_link, hreq, List.append_assoc]
    exact List.prefix_append _ _

/-- Concrete instance of `check_link_classifies` discharging its hypotheses. -/
theorem check_link_classifies_witness :
    check_link (.response 200) = ("OK".toList)
  ∧ check_link (.response 500) = ("FAILED: Status ".toList) ++ (toString 500).toList :=
  ⟨check_link_classifies.1 200 (by decide), check_link_classifies.2.1 500 (by decide)⟩

/-- C9: on a document whose block is a valid JSON array of numbers, the
decode succeeds, but the per-record membership test `key in item` raises an
uncaught TypeError, so extraction crashes instead of completing with partial
results — only `json.JSONDecodeError` is handled. -/
theorem nonobject_items_crash :
    jsonParse (("[1,2,3]".toList)) =
      some (.arr (JArr.ofList ((JValue.num false ('1' :: [])) ::
        (JValue.num false ('2' :: [])) :: (JValue.num false ('3' :: [])) :: [])))
  ∧ extract_urls_from_js (some doc9) = ExtractOutcome.crash
  ∧ (∀ probe : JValue → ProbeOutcome, main (some doc9) probe = RunOutcome.crash) := by
  exact ⟨by rfl, by rfl, fun probe => rfl⟩

/-- C8: extraction is a pure function of the document text, so two runs on
the same text return the same URL list, in particular the same set. -/
theorem extraction_idempotent (file : Option (List Char)) (u1 u2 : List JValue)
    (h1 : extract_urls_from_js file = .ok u1) (h2 : extract_urls_from_js file = .ok u2) :
    u1 = u2 ∧ ∀ x : JValue, (x ∈ u1 ↔ x ∈ u2) := by
  rw [h1] at h2
  cases h2
  exact ⟨rfl, fun x => Iff.rfl⟩

/-- Concrete instance of `extraction_idempotent` discharging its hypotheses. -/
theorem extraction_idempotent_witness :
    ((JValue.str ('u' :: [])) :: ([] : List JValue)) = ((JValue.str ('u' :: [])) :: [])
  ∧ ((JValue.str ('u' :: [])) ∈ ((JValue.str ('u' :: [])) :: ([] : List JValue))
      ↔ (JValue.str ('u' :: [])) ∈ ((JValue.str ('u' :: [])) :: ([] : List JValue))) :=
  ⟨(extraction_idempotent (some doc8) _ _ rfl rfl).1,
   (extraction_idempotent (some doc8) _ _ rfl rfl).2 _⟩

/-- C1: the success/failure signal. A missing file or a document with no
matched arrays exits 1; a completed run exits 1 exactly when some check
result differs from "OK", exits 0 exactly when all are "OK", and in
particular exits 0 when there were no URLs to check. -/
theorem main_exit_code (file : Option (List Char)) (probe : JValue → ProbeOutcome)
    (r : List (JValue × List Char)) :
    (file = none → exitCode (main file probe) = 1)
  ∧ (∀ doc : List Char, file = some doc → findBlocks doc = [] →
      exitCode (main file probe) = 1)
  ∧ (exitCode (.done r) = 1 ↔ ∃ p ∈ r, p.2 ≠ ("OK".toList))
  ∧ (exitCode (.done r) = 0 ↔ ∀ p ∈ r, p.2 = ("OK".toList))
  ∧ exitCode (.done ([] : List (JValue × List Char))) = 0 := by
  have key : broken_links r = [] ↔ ∀ p ∈ r, p.2 = ("OK".toList) := by
    simp [broken_links, List.filter_eq_nil_iff]
  have h1 : exitCode (.done r) = 1 ↔ ¬ (broken_links r = []) := by
    by_cases hb : broken_links r = [] <;> simp [exitCode, List.isEmpty_iff, hb]
  have h0 : exitCode (.done r) = 0 ↔ broken_links r = [] := by
    by_cases hb : broken_links r = [] <;> simp [exitCode, List.isEmpty_iff, hb]
  refine ⟨?_, ?_, ?_, ?_, by rfl⟩
  · intro h
    subst h
    rfl
  · intro doc h hb
    subst h
    simp [main, extract_urls_from_js, hb, exitCode]
  · rw [h1, key]
    push_neg
    rfl
  · rw [h0, key]

/-- Concrete instance of `main_exit_code` discharging its hypotheses. -/
theorem main_exit_code_witness :
    exitCode (main none (fun _ => ProbeOutcome.response 200)) = 1
  ∧ exitCode (RunOutcome.done (((JValue.str ('u' :: [])), ("OK".toList)) :: [])) = 0
  ∧ exitCode (RunOutcome.done (((JValue.str ('u' :: [])), ("FAILED: Status 404".toList)) :: [])) = 1
  ∧ exitCode (RunOutcome.done ([] : List (JValue × List Char))) = 0 := by
  refine ⟨(main_exit_code none (fun _ => ProbeOutcome.response 200) []).1 rfl, ?_, ?_, ?_⟩
  · exact (main_exit_code none (fun _ => ProbeOutcome.response 200) _).2.2.2.1.mpr
      (by intro p hp; simp at hp; simp [hp])
  · exact (main_exit_code none (fun _ => ProbeOutcome.response 200) _).2.2.1.mpr
      ⟨((JValue.str ('u' :: [])), ("FAILED: Status 404".toList)), by simp, by decide⟩
  · exact (main_exit_code none (fun _ => ProbeOutcome.response 200) []).2.2.2.2

/-- C5: extraction is fatal exactly when no named array block is found (and
then the exit code is 1 and no URL is checked, since the run never reaches
the check loop); a block whose cleaned-up text fails to parse is skipped and
processing continues with the remaining blocks. -/
theorem extraction_fatal_iff (doc : List Char) (probe : JValue → ProbeOutcome) :
    (extract_urls_from_js (some doc) = ExtractOutcome.fatal ↔ findBlocks doc = [])
  ∧ (main (some doc) probe = RunOutcome.fatal ↔ findBlocks doc = [])
  ∧ exitCode RunOutcome.fatal = 1
  ∧ (∀ (acc : List JValue) (pre : List (List Char)) (b : List Char) (post : List (List Char)),
      parseBlock b = none →
      collectUrlsAux acc (pre ++ b :: post) = collectUrlsAux acc (pre ++ post)) := by
  refine ⟨?_, ?_, by rfl, ?_⟩
  · by_cases hb : findBlocks doc = []
    · simp [extract_urls_from_js, hb]
    · cases hc : collectUrlsAux [] ((findBlocks doc).map (fun p => p.2)) <;>
        simp [extract_urls_from_js, List.isEmpty_iff, hb, hc]
  · by_cases hb : findBlocks doc = []
    · simp [main, extract_urls_from_js, hb]
    · cases hc : collectUrlsAux [] ((findBlocks doc).map (fun p => p.2)) <;>
        simp [main, extract_urls_from_js, List.isEmpty_iff, hb, hc]
  · intro acc pre b post hpb
    induction pre generalizing acc with
    | nil => simp [collectUrlsAux, procBlockText, hpb]
    | cons p pre ih =>
      cases h : procBlockText acc p <;> simp [collectUrlsAux, h, ih]

/-- Concrete instance of `extraction_fatal_iff` discharging its hypotheses. -/
theorem extraction_fatal_iff_witness :
    main (some (("no data here".toList))) (fun _ => ProbeOutcome.response 200) = RunOutcome.fatal
  ∧ collectUrlsAux [] ((("[oops]".toList)) :: []) = collectUrlsAux [] [] := by
  constructor
  · exact (extraction_fatal_iff (("no data here".toList)) _).2.1.mpr (by decide)
  · have h := (extraction_fatal_iff (("no data here".toList))
      (fun _ => ProbeOutcome.response 200)).2.2.2 [] [] (("[oops]".toList)) [] (by rfl)
    simpa using h

/-- A successful extraction is exactly a successful fold of the per-block
processing over the matched block texts. -/
theorem extract_ok_collect {doc : List Char} {urls : List JValue}
    (h : extract_urls_from_js (some doc) = ExtractOutcome.ok urls) :
    collectUrlsAux [] ((findBlocks doc).map (fun p => p.2)) = some urls := by
  simp only [extract_urls_from_js] at h
  by_cases hb : (findBlocks doc).isEmpty
  · rw [if_pos hb] at h
    exact ExtractOutcome.noConfusion h
  · rw [if_neg hb] at h
    cases hc : collectUrlsAux [] ((findBlocks doc).map (fun p => p.2)) with
    | none => rw [hc] at h; exact ExtractOutcome.noConfusion h
    | some l => rw [hc] at h; injection h with h2; rw [h2]

/-- Inserting into the URL set keeps the accumulated list duplicate-free. -/
theorem addUrl_nodup {acc : List JValue} {v : JValue} (h : acc.Nodup) :
    (addUrl acc v).Nodup := by
  unfold addUrl
  split
  · exact h
  · next hv =>
    refine List.Nodup.append h (List.nodup_singleton v) ?_
    intro a ha hb
    simp only [List.mem_singleton] at hb
    exact hv (hb ▸ ha)

/-- One field step keeps the accumulated list duplicate-free. -/
theorem fieldStep_nodup {acc : List JValue} {kvs : JObj} {key : List Char}
    (h : acc.Nodup) : (fieldStep acc kvs key).Nodup := by
  cases hg : objGet kvs key with
  | none => simp only [fieldStep, hg]; exact h
  | some v =>
    simp only [fieldStep, hg]
    split
    · exact addUrl_nodup h
    · exact h

/-- Processing a record keeps the accumulated list duplicate-free. -/
theorem procObj_nodup {acc : List JValue} {kvs : JObj} (h : acc.Nodup) :
    (procObj acc kvs).Nodup :=
  fieldStep_nodup (fieldStep_nodup h)

/-- Processing one item keeps the accumulated list duplicate-free. -/
theorem procItem_nodup {acc : List JValue} {it : JValue} {acc2 : List JValue}
    (hp : procItem acc it = some acc2) (h : acc.Nodup) : acc2.Nodup := by
  cases it with
  | obj kvs =>
    simp only [procItem, Option.some.injEq] at hp
    exact hp ▸ procObj_nodup h
  | str s =>
    simp only [procItem] at hp
    split_ifs at hp
    all_goals
      first
        | exact Option.noConfusion hp
        | (injection hp with h2; exact h2 ▸ h)
  | arr a =>
    simp only [procItem] at hp
    split_ifs at hp
    all_goals
      first
        | exact Option.noConfusion hp
        | (injection hp with h2; exact h2 ▸ h)
  | null => exact Option.noConfusion hp
  | bool b => exact Option.noConfusion hp
  | num z raw => exact Option.noConfusion hp

/-- The item loop keeps the accumulated list duplicate-free. -/
theorem procItems_nodup : ∀ {items : List JValue} {acc l : List JValue},
    procItems acc items = some l → acc.Nodup → l.Nodup := by
  intro items
  induction items with
  | nil =>
    intro acc l hp h
    simp only [procItems, Option.some.injEq] at hp
    exact hp ▸ h
  | cons it rest ih =>
    intro acc l hp h
    unfold procItems at hp
    cases hpi : procItem acc it with
    | none => rw [hpi] at hp; exact Option.noConfusion hp
    | some acc2 => rw [hpi] at hp; exact ih hp (procItem_nodup hpi h)

/-- Per-block processing keeps the accumulated list duplicate-free. -/
theorem procBlockText_nodup {acc : List JValue} {b : List Char} {l : List JValue}
    (hp : procBlockText acc b = some l) (h : acc.Nodup) : l.Nodup := by
  cases hb : parseBlock b with
  | none =>
    simp only [procBlockText, hb, Option.some.injEq] at hp
    exact hp ▸ h
  | some v =>
    cases hv : elemsOf v with
    | none =>
      simp only [procBlockText, hb, hv] at hp
      exact Option.noConfusion hp
    | some items =>
      simp only [procBlockText, hb, hv] at hp
      exact procItems_nodup hp h

/-- The block fold keeps the accumulated list duplicate-free. -/
theorem collectUrls_nodup : ∀ {bs : List (List Char)} {acc l : List JValue},
    collectUrlsAux acc bs = some l → acc.Nodup → l.Nodup := by
  intro bs
  induction bs with
  | nil =>
    intro acc l hp h
    simp only [collectUrlsAux, Option.some.injEq] at hp
    exact hp ▸ h
  | cons b rest ih =>
    intro acc l hp h
    unfold collectUrlsAux at hp
    cases hpb : procBlockText acc b with
    | none => rw [hpb] at hp; exact Option.noConfusion hp
    | some acc2 => rw [hpb] at hp; exact ih hp (procBlockText_nodup hpb h)

/-- C4: whenever a run completes, its report pairs every extracted URL, in
iteration order, with the classification of its probe: the report has the
same length as the URL list and each URL appears exactly once. -/
theorem report_matches_urlset (doc : List Char) (probe : JValue → ProbeOutcome)
    (r : List (JValue × List Char)) (h : main (some doc) probe = RunOutcome.done r) :
    ∃ urls : List JValue,
      extract_urls_from_js (some doc) = ExtractOutcome.ok urls
      ∧ r = runReport probe urls
      ∧ r.map Prod.fst = urls
      ∧ r.length = urls.length
      ∧ urls.Nodup
      ∧ ∀ u ∈ urls, (r.map Prod.fst).count u = 1 := by
  cases he : extract_urls_from_js (some doc) with
  | fatal => simp [main, he] at h
  | crash => simp [main, he] at h
  | ok urls =>
    have hr : r = runReport probe urls := by
      simp only [main, he, RunOutcome.done.injEq] at h
      exact h.symm
    have hnd : urls.Nodup := collectUrls_nodup (extract_ok_collect he) List.nodup_nil
    have hfst : r.map Prod.fst = urls := by
      rw [hr]
      simp [runReport, List.map_map, Function.comp_def]
    refine ⟨urls, rfl, hr, hfst, ?_, hnd, ?_⟩
    · rw [hr]; simp [runReport]
    · intro u hu
      rw [hfst]
      exact List.count_eq_one_of_mem hnd hu

/-- Concrete instance of `report_matches_urlset` discharging its hypothesis. -/
theorem report_matches_urlset_witness :
    extract_urls_from_js (some doc4) =
      ExtractOutcome.ok ((JValue.str ('a' :: [])) :: (JValue.str ('b' :: [])) :: [])
  ∧ ((((JValue.str ('a' :: [])), ("FAILED: Status 404".toList)) ::
      (((JValue.str ('b' :: [])), ("FAILED: Status 404".toList))) :: []).map Prod.fst).count
        (JValue.str ('a' :: [])) = 1
  ∧ ((JValue.str ('a' :: [])) :: (JValue.str ('b' :: [])) :: ([] : List JValue)).Nodup := by
  obtain ⟨urls, h1, h2, h3, h4, h5, h6⟩ :=
    report_matches_urlset doc4 (fun _ => ProbeOutcome.response 404)
      ((((JValue.str ('a' :: [])), ("FAILED: Status 404".toList)) ::
        (((JValue.str ('b' :: [])), ("FAILED: Status 404".toList))) :: [])) rfl
  have h7 : ExtractOutcome.ok urls =
      ExtractOutcome.ok ((JValue.str ('a' :: [])) :: (JValue.str ('b' :: [])) :: []) :=
    h1.symm.trans (by rfl)
  injection h7 with h8
  subst h8
  exact ⟨h1, h6 _ (by simp), h5⟩

/-- Membership after a set insertion. -/
theorem mem_addUrl {acc : List JValue} {v x : JValue} :
    x ∈ addUrl acc v ↔ x ∈ acc ∨ x = v := by
  unfold addUrl
  split
  · next hv =>
    constructor
    · exact Or.inl
    · rintro (hx | rfl)
      · exact hx
      · exact hv
  · simp

/-- Membership after one field step. -/
theorem mem_fieldStep {acc : List JValue} {kvs : JObj} {key : List Char} {x : JValue} :
    x ∈ fieldStep acc kvs key ↔
      x ∈ acc ∨ (objGet kvs key = some x ∧ truthy x = true) := by
  cases hg : objGet kvs key with
  | none => simp [fieldStep, hg]
  | some v =>
    simp only [fieldStep, hg]
    by_cases ht : truthy v = true
    · rw [if_pos ht, mem_addUrl]
      constructor
      · rintro (hx | rfl)
        · exact Or.inl hx
        · exact Or.inr ⟨rfl, ht⟩
      · rintro (hx | ⟨hv, _⟩)
        · exact Or.inl hx
        · injection hv with hv2
          exact Or.inr hv2.symm
    · rw [if_neg ht]
      constructor
      · exact Or.inl
      · rintro (hx | ⟨hv, hx⟩)
        · exact hx
        · injection hv with hv2
          exact absurd (by rw [hv2]; exact hx) ht

/-- Membership after processing one record. -/
theorem mem_procObj {acc : List JValue} {kvs : JObj} {x : JValue} :
    x ∈ procObj acc kvs ↔ x ∈ acc ∨ fieldContrib kvs x := by
  unfold procObj fieldContrib
  rw [mem_fieldStep, mem_fieldStep]
  tauto

/-- Membership after one surviving loop iteration: only records contribute. -/
theorem mem_procItem {acc : List JValue} {it : JValue} {acc2 : List JValue}
    (hp : procItem acc it = some acc2) (x : JValue) :
    x ∈ acc2 ↔ x ∈ acc ∨ itemContrib it x := by
  cases it with
  | obj kvs =>
    simp only [procItem, Option.some.injEq] at hp
    subst hp
    rw [mem_procObj]
    simp [itemContrib]
  | str s =>
    simp only [procItem] at hp
    split_ifs at hp
    all_goals
      first
        | exact Option.noConfusion hp
        | (injection hp with h2; subst h2; simp [itemContrib])
  | arr a =>
    simp only [procItem] at hp
    split_ifs at hp
    all_goals
      first
        | exact Option.noConfusion hp
        | (injection hp with h2; subst h2; simp [itemContrib])
  | null => exact Option.noConfusion hp
  | bool b => exact Option.noConfusion hp
  | num z raw => exact Option.noConfusion hp

/-- Membership after the whole item loop, when it survives. -/
theorem mem_procItems : ∀ {items : List JValue} {acc l : List JValue},
    procItems acc items = some l → ∀ x : JValue,
    (x ∈ l ↔ x ∈ acc ∨ ∃ it ∈ items, itemContrib it x) := by
  intro items
  induction items with
  | nil =>
    intro acc l hp x
    simp only [procItems, Option.some.injEq] at hp
    subst hp
    simp
  | cons it rest ih =>
    intro acc l hp x
    unfold procItems at hp
    cases hpi : procItem acc it with
    | none => rw [hpi] at hp; exact Option.noConfusion hp
    | some acc2 =>
      rw [hpi] at hp
      rw [ih hp x, mem_procItem hpi x]
      simp only [List.mem_cons, or_assoc]
      constructor
      · rintro (hx | hx | ⟨it2, h2, h3⟩)
        · exact Or.inl hx
        · exact Or.inr ⟨it, Or.inl rfl, hx⟩
        · exact Or.inr ⟨it2, Or.inr h2, h3⟩
      · rintro (hx | ⟨it2, (rfl | h2), h3⟩)
        · exact Or.inl hx
        · exact Or.inr (Or.inl h3)
        · exact Or.inr (Or.inr ⟨it2, h2, h3⟩)

/-- Membership after processing one block, when it survives: a skipped block
contributes nothing, a decoded one contributes through its records. -/
theorem mem_procBlockText {acc : List JValue} {b : List Char} {l : List JValue}
    (hp : procBlockText acc b = some l) (x : JValue) :
    x ∈ l ↔ x ∈ acc ∨ blockContrib b x := by
  cases hb : parseBlock b with
  | none =>
    simp only [procBlockText, hb, Option.some.injEq] at hp
    subst hp
    simp [blockContrib, hb]
  | some v =>
    cases v with
    | arr a =>
      simp only [procBlockText, hb, elemsOf] at hp
      rw [mem_procItems hp x]
      simp [blockContrib, hb]
    | str s =>
      simp only [procBlockText, hb, elemsOf] at hp
      rw [mem_procItems hp x]
      simp [blockContrib, hb, itemContrib, List.mem_map]
    | obj o =>
      simp only [procBlockText, hb, elemsOf] at hp
      rw [mem_procItems hp x]
      have hfalse1 : ¬ blockContrib b x := by
        rintro ⟨arr, harr, -⟩
        rw [hb] at harr
        simp at harr
      have hfalse2 :
          ¬ ∃ it ∈ (JObj.toList o).map (fun p => JValue.str p.1), itemContrib it x := by
        rintro ⟨it, hit, kvs, heq, -⟩
        rw [List.mem_map] at hit
        obtain ⟨p, -, rfl⟩ := hit
        exact JValue.noConfusion heq
      constructor
      · rintro (hx | hx)
        · exact Or.inl hx
        · exact absurd hx hfalse2
      · rintro (hx | hx)
        · exact Or.inl hx
        · exact absurd hx hfalse1
    | null =>
      simp only [procBlockText, hb, elemsOf] at hp
      exact Option.noConfusion hp
    | bool bb =>
      simp only [procBlockText, hb, elemsOf] at hp
      exact Option.noConfusion hp
    | num z raw =>
      simp only [procBlockText, hb, elemsOf] at hp
      exact Option.noConfusion hp

/-- Membership after the whole block fold, when it survives. -/
theorem mem_collectUrls : ∀ {bs : List (List Char)} {acc l : List JValue},
    collectUrlsAux acc bs = some l → ∀ x : JValue,
    (x ∈ l ↔ x ∈ acc ∨ ∃ b ∈ bs, blockContrib b x) := by
  intro bs
  induction bs with
  | nil =>
    intro acc l hp x
    simp only [collectUrlsAux, Option.some.injEq] at hp
    subst hp
    simp
  | cons b rest ih =>
    intro acc l hp x
    unfold collectUrlsAux at hp
    cases hpb : procBlockText acc b with
    | none => rw [hpb] at hp; exact Option.noConfusion hp
    | some acc2 =>
      rw [hpb] at hp
      rw [ih hp x, mem_procBlockText hpb x]
      simp only [List.mem_cons, or_assoc]
      constructor
      · rintro (hx | hx | ⟨b2, h2, h3⟩)
        · exact Or.inl hx
        · exact Or.inr ⟨b, Or.inl rfl, hx⟩
        · exact Or.inr ⟨b2, Or.inr h2, h3⟩
      · rintro (hx | ⟨b2, (rfl | h2), h3⟩)
        · exact Or.inl hx
        · exact Or.inr (Or.inl h3)
        · exact Or.inr (Or.inr ⟨b2, h2, h3⟩)

/-- C6: a successfully returned URL set is duplicate-free and contains
exactly the truthy `url` and `homepageUrl` values of the records of the
blocks whose cleaned-up text decodes to an array: a record missing both
fields contributes nothing, an empty-string field is ignored (it is falsy),
and a URL reached from several records, fields or blocks appears once. -/
theorem urlset_characterization (doc : List Char) (urls : List JValue)
    (h : extract_urls_from_js (some doc) = ExtractOutcome.ok urls) :
    urls.Nodup ∧ ∀ x : JValue,
      (x ∈ urls ↔ ∃ nb ∈ findBlocks doc, blockContrib nb.2 x) := by
  have hc := extract_ok_collect h
  refine ⟨collectUrls_nodup hc List.nodup_nil, ?_⟩
  intro x
  rw [mem_collectUrls hc x]
  simp only [List.mem_map, List.not_mem_nil, false_or]
  constructor
  · rintro ⟨b, ⟨nb, hnb, rfl⟩, hcb⟩
    exact ⟨nb, hnb, hcb⟩
  · rintro ⟨nb, hnb, hcb⟩
    exact ⟨nb.2, ⟨nb, hnb, rfl⟩, hcb⟩

/-- Concrete instance of `urlset_characterization` discharging its
hypothesis. -/
theorem urlset_characterization_witness :
    ((JValue.str ('a' :: [])) :: ([] : List JValue)).Nodup
  ∧ ((JValue.str ('a' :: [])) ∈ ((JValue.str ('a' :: [])) :: ([] : List JValue))
      ↔ ∃ nb ∈ findBlocks doc6, blockContrib nb.2 (JValue.str ('a' :: []))) :=
  ⟨(urlset_characterization doc6 ((JValue.str ('a' :: [])) :: []) rfl).1,
   (urlset_characterization doc6 ((JValue.str ('a' :: [])) :: []) rfl).2 _⟩

/-- Dropping over an all-satisfying prefix continues in the suffix. -/
theorem dropWhile_append_all {p : Char → Bool} : ∀ {x y : List Char},
    (∀ c ∈ x, p c = true) → (x ++ y).dropWhile p = y.dropWhile p := by
  intro x
  induction x with
  | nil => intro y _; rfl
  | cons c x ih =>
    intro y h
    have hc : p c = true := h c (List.mem_cons_self c x)
    simp only [List.cons_append, List.dropWhile_cons, hc, if_true]
    exact ih (fun d hd => h d (List.mem_cons_of_mem c hd))

/-- The executable dangling-comma check implies the quantified condition. -/
theorem nd_of_not_dangling {s : List Char} (h : hasDanglingComma s = false) :
    noDanglingComma s := by
  intro a w hw heq
  subst heq
  have hwrev : ∀ c ∈ w.reverse, isPyWs c = true :=
    fun c hc => hw c (List.mem_reverse.mp hc)
  have hdrop : ((a ++ ',' :: w).reverse).dropWhile isPyWs = ',' :: a.reverse := by
    have hrev : (a ++ ',' :: w).reverse = w.reverse ++ ',' :: a.reverse := by simp
    rw [hrev, dropWhile_append_all hwrev]
    have hcomma : isPyWs ',' = false := by decide
    simp [List.dropWhile_cons, hcomma]
  unfold hasDanglingComma at h
  rw [hdrop] at h
  simp at h

/-- The dangling-comma condition passes to suffixes. -/
theorem nd_suffix {x r : List Char} (h : noDanglingComma (x ++ r)) :
    noDanglingComma r := by
  intro a w hw heq
  exact h (x ++ a) w hw (by simp [heq])

/-- The dangling-comma condition passes to the tail. -/
theorem nd_tail {c : Char} {u : List Char} (h : noDanglingComma (c :: u)) :
    noDanglingComma u :=
  nd_suffix (x := (c :: [])) h

/-- After a comma, the dangling-comma condition forbids an all-whitespace
rest. -/
theorem nd_comma_nonws {u : List Char} (h : noDanglingComma (',' :: u)) :
    ¬ ∀ c ∈ u, isPyWs c = true :=
  fun hall => h [] u hall rfl

/-- A successful close lookahead decomposes the input. -/
theorem wsThenClose_decomp {close : Char} : ∀ {u : List Char},
    wsThenClose close u = true →
    ∃ w r, u = w ++ close :: r ∧ ∀ c ∈ w, isPyWs c = true := by
  intro u
  induction u with
  | nil => intro h; exact absurd h (by simp [wsThenClose])
  | cons c rest ih =>
    intro h
    by_cases hc : c = close
    · subst hc
      exact ⟨[], rest, rfl, by simp⟩
    · simp only [wsThenClose, if_neg hc] at h
      by_cases hw : isPyWs c = true
      · rw [if_pos hw] at h
        obtain ⟨w, r, heq, hws⟩ := ih h
        refine ⟨c :: w, r, by simp [heq], ?_⟩
        intro d hd
        rcases List.mem_cons.mp hd with rfl | hd2
        · exact hw
        · exact hws d hd2
      · rw [if_neg hw] at h
        exact absurd h (by simp)

/-- The close lookahead succeeds on whitespace followed by the close. -/
theorem wsThenClose_mk {close : Char} (hcl : isPyWs close = false) :
    ∀ {w : List Char} (t : List Char), (∀ c ∈ w, isPyWs c = true) →
    wsThenClose close (w ++ close :: t) = true := by
  intro w
  induction w with
  | nil => intro t _; simp [wsThenClose]
  | cons c w ih =>
    intro t h
    have hcw : isPyWs c = true := h c (List.mem_cons_self c w)
    have hne : c ≠ close := by
      intro e
      subst e
      rw [hcw] at hcl
      exact Bool.noConfusion hcl
    simp only [List.cons_append, wsThenClose, if_neg hne, if_pos hcw]
    exact ih t (fun d hd => h d (List.mem_cons_of_mem c hd))

/-- When the scanned text has a non-whitespace character, the close lookahead
never reads past it, so appending anything does not change it. -/
theorem wsThenClose_append_eq {close : Char} : ∀ {u : List Char} (z : List Char),
    (¬ ∀ c ∈ u, isPyWs c = true) →
    wsThenClose close (u ++ z) = wsThenClose close u := by
  intro u
  induction u with
  | nil => intro z h; exact absurd (by simp) h
  | cons c rest ih =>
    intro z h
    by_cases hc : c = close
    · subst hc
      simp [wsThenClose]
    · by_cases hw : isPyWs c = true
      · have hrest : ¬ ∀ d ∈ rest, isPyWs d = true := by
          intro hall
          apply h
          intro d hd
          rcases List.mem_cons.mp hd with rfl | hd2
          · exact hw
          · exact hall d hd2
        simp only [List.cons_append, wsThenClose, if_neg hc, if_pos hw]
        exact ih z hrest
      · simp only [List.cons_append, wsThenClose, if_neg hc, if_neg hw]

/-- Step equation: a comma whose lookahead fails is kept. -/
theorem stripAux_comma_nomatch {close : Char} {s : List Char}
    (h : wsThenClose close s = false) :
    stripAux close false (',' :: s) = ',' :: stripAux close false s := by
  simp [stripAux, h]

/-- Step equation: a comma whose lookahead succeeds is dropped and the
whitespace-eating state entered. -/
theorem stripAux_comma_match {close : Char} {s : List Char}
    (h : wsThenClose close s = true) :
    stripAux close false (',' :: s) = stripAux close true s := by
  simp [stripAux, h]

/-- Step equation: any non-comma character is kept. -/
theorem stripAux_cons_other {close : Char} {c : Char} {s : List Char} (h : c ≠ ',') :
    stripAux close false (c :: s) = c :: stripAux close false s := by
  simp [stripAux, h]

/-- Step equation: the whitespace-eating state ends at the close. -/
theorem stripAux_true_close {close : Char} {s : List Char} :
    stripAux close true (close :: s) = close :: stripAux close false s := by
  simp [stripAux]

/-- Step equation: the whitespace-eating state drops anything else. -/
theorem stripAux_true_other {close : Char} {a : Char} {s : List Char} (h : a ≠ close) :
    stripAux close true (a :: s) = stripAux close true s := by
  simp [stripAux, h]

/-- The whitespace-eating state over a whitespace run followed by the close
emits the close and resumes fresh. -/
theorem stripAux_true_ws {close : Char} (hcl : isPyWs close = false) :
    ∀ {w : List Char} (t : List Char), (∀ c ∈ w, isPyWs c = true) →
    stripAux close true (w ++ close :: t) = close :: stripAux close false t := by
  intro w
  induction w with
  | nil => intro t _; exact stripAux_true_close
  | cons c w ih =>
    intro t h
    have hcw : isPyWs c = true := h c (List.mem_cons_self c w)
    have hne : c ≠ close := by
      intro e
      subst e
      rw [hcw] at hcl
      exact Bool.noConfusion hcl
    rw [List.cons_append, stripAux_true_other hne]
    exact ih t (fun d hd => h d (List.mem_cons_of_mem c hd))

/-- When no decomposition of `u` ends in a comma followed only by whitespace,
no match of the substitution spans the boundary, so one pass distributes over
concatenation. -/
theorem stripAux_append {close : Char} (hcl : isPyWs close = false) :
    ∀ (n : Nat) (u z : List Char), u.length ≤ n → noDanglingComma u →
    stripAux close false (u ++ z) = stripAux close false u ++ stripAux close false z := by
  intro n
  induction n with
  | zero =>
    intro u z hlen _
    have hu : u = [] := List.length_eq_zero.mp (Nat.le_zero.mp hlen)
    subst hu
    simp [stripAux]
  | succ n ih =>
    intro u z hlen hnd
    cases u with
    | nil => simp [stripAux]
    | cons c u2 =>
      by_cases hc : c = ','
      · subst hc
        by_cases hw : wsThenClose close u2 = true
        · obtain ⟨w, r, rfl, hws⟩ := wsThenClose_decomp hw
          have hx : ((',' :: (w ++ close :: r)) ++ z) = ',' :: (w ++ close :: (r ++ z)) := by
            simp
          have h1b : wsThenClose close (w ++ close :: (r ++ z)) = true :=
            wsThenClose_mk hcl (r ++ z) hws
          rw [hx, stripAux_comma_match h1b, stripAux_true_ws hcl (r ++ z) hws,
            stripAux_comma_match hw, stripAux_true_ws hcl r hws]
          have hlen2 : r.length ≤ n := by
            simp [List.length_append] at hlen
            omega
          have hnd3 : noDanglingComma r := by
            have he2 : ((',' :: (w ++ (close :: []))) ++ r) = ',' :: (w ++ close :: r) := by
              simp
            exact nd_suffix (he2 ▸ hnd)
          rw [ih r z hlen2 hnd3]
          simp
        · have hnall : ¬ ∀ d ∈ u2, isPyWs d = true := nd_comma_nonws hnd
          have hw' : wsThenClose close u2 = false := by simpa using hw
          have hw2 : wsThenClose close (u2 ++ z) = false := by
            rw [wsThenClose_append_eq z hnall]
            exact hw'
          rw [List.cons_append, stripAux_comma_nomatch hw2, stripAux_comma_nomatch hw']
          have hlen2 : u2.length ≤ n := by
            simp at hlen
            omega
          rw [ih u2 z hlen2 (nd_tail hnd)]
          simp
      · rw [List.cons_append, stripAux_cons_other hc, stripAux_cons_other hc]
        have hlen2 : u2.length ≤ n := by
          simp at hlen
          omega
        rw [ih u2 z hlen2 (nd_tail hnd)]
        simp

/-- C7: lenient normalization tolerates trailing separators. Inserting one
comma directly before a closing brace or bracket changes neither the decode
of the block nor the extracted URL set; in particular, when the block
without the comma parses successfully, the block with the comma still
parses successfully, to the same value. The hypotheses say that the text
before the insertion point does not end in a comma followed only by
whitespace (checked after quote normalization, and after the brace pass for
the bracket case). At a trailing-separator position of a strictly valid
block they always hold, because valid JSON never has a separator comma
followed only by whitespace before a closing brace or bracket; only an
insertion point inside a string literal — which is not a trailing
separator — could violate them. -/
theorem trailing_comma_insensitive (u v : List Char) (cl : Char)
    (hcl : cl = '\x7d' ∨ cl = ']')
    (h1 : hasDanglingComma (normQuotes u) = false)
    (h2 : hasDanglingComma (stripClose '\x7d' (normQuotes u)) = false) :
    parseBlock (u ++ ',' :: cl :: v) = parseBlock (u ++ cl :: v)
  ∧ (∀ val : JValue, parseBlock (u ++ cl :: v) = some val →
      parseBlock (u ++ ',' :: cl :: v) = some val)
  ∧ ∀ (pre post : List (List Char)) (acc : List JValue),
      collectUrlsAux acc (pre ++ (u ++ ',' :: cl :: v) :: post)
        = collectUrlsAux acc (pre ++ (u ++ cl :: v) :: post) := by
  have hnd1 := nd_of_not_dangling h1
  have hnd2 := nd_of_not_dangling h2
  have hbr : isPyWs '\x7d' = false := by decide
  have hbk : isPyWs ']' = false := by decide
  have hqcl : quoteNorm cl = cl := by
    rcases hcl with rfl | rfl <;> decide
  have hkey : normalizeBlock (u ++ ',' :: cl :: v) = normalizeBlock (u ++ cl :: v) := by
    unfold normalizeBlock stripClose
    have hnq1 : normQuotes (u ++ ',' :: cl :: v)
        = normQuotes u ++ ',' :: cl :: normQuotes v := by
      simp [normQuotes, hqcl]
      decide
    have hnq2 : normQuotes (u ++ cl :: v) = normQuotes u ++ cl :: normQuotes v := by
      simp [normQuotes, hqcl]
    rw [hnq1, hnq2]
    have hnd2b : noDanglingComma (stripAux '\x7d' false (normQuotes u)) := hnd2
    rcases hcl with rfl | rfl
    · rw [stripAux_append hbr (normQuotes u).length (normQuotes u) _ le_rfl hnd1,
        stripAux_append hbr (normQuotes u).length (normQuotes u) _ le_rfl hnd1]
      have e3 : stripAux '\x7d' false (',' :: '\x7d' :: normQuotes v)
          = '\x7d' :: stripAux '\x7d' false (normQuotes v) := by
        rw [stripAux_comma_match (by simp [wsThenClose]), stripAux_true_close]
      have e4 : stripAux '\x7d' false ('\x7d' :: normQuotes v)
          = '\x7d' :: stripAux '\x7d' false (normQuotes v) :=
        stripAux_cons_other (by decide)
      rw [e3, e4]
    · rw [stripAux_append hbr (normQuotes u).length (normQuotes u) _ le_rfl hnd1,
        stripAux_append hbr (normQuotes u).length (normQuotes u) _ le_rfl hnd1]
      have e3 : stripAux '\x7d' false (',' :: ']' :: normQuotes v)
          = ',' :: ']' :: stripAux '\x7d' false (normQuotes v) := by
        rw [stripAux_comma_nomatch (by simp [wsThenClose, hbk]),
          stripAux_cons_other (by decide)]
      have e4 : stripAux '\x7d' false (']' :: normQuotes v)
          = ']' :: stripAux '\x7d' false (normQuotes v) :=
        stripAux_cons_other (by decide)
      rw [e3, e4]
      rw [stripAux_append hbk (stripAux '\x7d' false (normQuotes u)).length _ _ le_rfl hnd2b,
        stripAux_append hbk (stripAux '\x7d' false (normQuotes u)).length _ _ le_rfl hnd2b]
      have f3 : stripAux ']' false (',' :: ']' :: stripAux '\x7d' false (normQuotes v))
          = ']' :: stripAux ']' false (stripAux '\x7d' false (normQuotes v)) := by
        rw [stripAux_comma_match (by simp [wsThenClose]), stripAux_true_close]
      have f4 : stripAux ']' false (']' :: stripAux '\x7d' false (normQuotes v))
          = ']' :: stripAux ']' false (stripAux '\x7d' false (normQuotes v)) :=
        stripAux_cons_other (by decide)
      rw [f3, f4]
  have hpb : parseBlock (u ++ ',' :: cl :: v) = parseBlock (u ++ cl :: v) := by
    unfold parseBlock
    rw [hkey]
  refine ⟨hpb, fun val hv => hpb.trans hv, ?_⟩
  intro pre post acc
  induction pre generalizing acc with
  | nil =>
    simp only [List.nil_append, collectUrlsAux]
    unfold procBlockText
    rw [hpb]
  | cons p pre ih =>
    simp only [List.cons_append, collectUrlsAux]
    cases hpp : procBlockText acc p with
    | none => rfl
    | some acc2 => exact ih acc2

/-- Concrete instance of `trailing_comma_insensitive` discharging its
hypotheses: a genuine syntactic trailing comma before the record's closing
brace is erased and the block still parses successfully to the same value. -/
theorem trailing_comma_insensitive_witness :
    parseBlock (("[\x7b\"url\":\"a\"".toList) ++ ',' :: '\x7d' :: ("]".toList))
      = parseBlock (("[\x7b\"url\":\"a\"".toList) ++ '\x7d' :: ("]".toList))
  ∧ parseBlock (("[\x7b\"url\":\"a\"".toList) ++ ',' :: '\x7d' :: ("]".toList))
      = some (JValue.arr (JArr.ofList ((JValue.obj (JObj.ofList
          ((urlField, JValue.str ('a' :: [])) :: []))) :: [])))
  ∧ collectUrlsAux [] ((("[\x7b\"url\":\"a\"".toList) ++ ',' :: '\x7d' :: ("]".toList)) :: [])
      = collectUrlsAux [] ((("[\x7b\"url\":\"a\"".toList) ++ '\x7d' :: ("]".toList)) :: []) := by
  have h := trailing_comma_insensitive (("[\x7b\"url\":\"a\"".toList)) (("]".toList)) '\x7d'
    (Or.inl rfl) (by decide) (by decide)
  refine ⟨h.1, h.2.1 _ (by rfl), ?_⟩
  have h2 := h.2.2 [] [] []
  simpa using h2

/-- C10 counterexample: the URL set of `doc10` contains a single-quote
character (decoded from a backslash-u escape), even though the raw document
contains none, refuting the claim that no returned URL can contain one. -/
theorem quote_in_url_counterexample :
    extract_urls_from_js (some doc10) =
      ExtractOutcome.ok ((JValue.str ('a' :: squote :: 'b' :: [])) :: [])
  ∧ squote ∈ ('a' :: squote :: 'b' :: ([] : List Char))
  ∧ squote ∉ doc10 :=
  ⟨by rfl, by simp, by decide⟩

/-- Characters surviving a substitution pass come from the input or are the
re-emitted close character. -/
theorem mem_stripAux {close : Char} : ∀ {s : List Char} {st : Bool} {c : Char},
    c ∈ stripAux close st s → c ∈ s ∨ c = close := by
  intro s
  induction s with
  | nil =>
    intro st c h
    cases st <;> simp [stripAux] at h
  | cons a rest ih =>
    intro st c h
    have lift : c ∈ stripAux close false rest ∨ c ∈ stripAux close true rest →
        c ∈ a :: rest ∨ c = close := by
      rintro (h2 | h2)
      all_goals
        rcases ih h2 with h3 | h3
        · exact Or.inl (List.mem_cons_of_mem _ h3)
        · exact Or.inr h3
    cases st with
    | true =>
      by_cases ha : a = close
      · subst ha
        rw [stripAux_true_close] at h
        rcases List.mem_cons.mp h with rfl | h2
        · exact Or.inr rfl
        · exact lift (Or.inl h2)
      · rw [stripAux_true_other ha] at h
        exact lift (Or.inr h)
    | false =>
      by_cases ha : a = ','
      · subst ha
        by_cases hw : wsThenClose close rest = true
        · rw [stripAux_comma_match hw] at h
          exact lift (Or.inr h)
        · rw [stripAux_comma_nomatch (by simpa using hw)] at h
          rcases List.mem_cons.mp h with rfl | h2
          · exact Or.inl (List.mem_cons_self _ _)
          · exact lift (Or.inl h2)
      · rw [stripAux_cons_other ha] at h
        rcases List.mem_cons.mp h with rfl | h2
        · exact Or.inl (List.mem_cons_self _ _)
        · exact lift (Or.inl h2)

/-- No single quote or backtick survives quote normalization. -/
theorem mem_normQuotes {s : List Char} {c : Char} (h : c ∈ normQuotes s) :
    c ≠ squote ∧ c ≠ btick := by
  rw [normQuotes, List.mem_map] at h
  obtain ⟨d, -, rfl⟩ := h
  unfold quoteNorm
  split
  · exact ⟨by decide, by decide⟩
  · next hd =>
    simp only [Bool.or_eq_true, decide_eq_true_eq, not_or] at hd
    exact hd

/-- C10 as amended: quote normalization is a character map applied at every
position of the block, including inside string values; consequently the text
handed to the JSON decoder never contains a single quote or backtick, and a
URL can only acquire one through a backslash escape decoded by the parser. -/
theorem quote_normalization_global :
    (∀ s : List Char, (normQuotes s).length = s.length)
  ∧ (∀ (s : List Char) (i : Nat) (h1 : i < (normQuotes s).length) (h2 : i < s.length),
      (normQuotes s).get ⟨i, h1⟩ = quoteNorm (s.get ⟨i, h2⟩))
  ∧ (∀ (b : List Char) (c : Char), c ∈ normalizeBlock b → c ≠ squote ∧ c ≠ btick) := by
  refine ⟨?_, ?_, ?_⟩
  · intro s
    simp [normQuotes]
  · intro s i h1 h2
    simp [normQuotes]
  · intro b c hc
    unfold normalizeBlock stripClose at hc
    rcases mem_stripAux hc with hc2 | rfl
    · rcases mem_stripAux hc2 with hc3 | rfl
      · exact mem_normQuotes hc3
      · exact ⟨by decide, by decide⟩
    · exact ⟨by decide, by decide⟩

/-- Concrete instance of `quote_normalization_global` discharging its
hypotheses. -/
theorem quote_normalization_global_witness :
    (normQuotes ('a' :: [])).length = ('a' :: ([] : List Char)).length
  ∧ (normQuotes ('a' :: [])).get ⟨0, by simp [normQuotes]⟩ = quoteNorm 'a'
  ∧ ('[' ≠ squote ∧ '[' ≠ btick) := by
  refine ⟨quote_normalization_global.1 ('a' :: []), ?_, ?_⟩
  · exact quote_normalization_global.2.1 ('a' :: []) 0 (by simp [normQuotes]) (by simp)
  · exact quote_normalization_global.2.2 (("[]".toList)) '[' (by decide)

end LinkChecker
